import Mathlib

/-!
Verification of the glossify annotation parser (`src/index.js`).

The JavaScript source is shallowly embedded over `List Char` (a JS string is
modelled as its character sequence).  Scanning loops are written with an
explicit structural fuel argument so that every definition is executable by
kernel reduction; each wrapper instantiates the fuel with a bound that is
always sufficient (`s.length + 1`), and all lemmas about the fueled workers
carry the corresponding sufficiency hypothesis.
-/

namespace Gloss

/-- JS `\w` character class (ASCII word characters), as used by the
annotation head regex `@(\w+)\s*([^{]*?)\s*\{`. -/
def isWordChar (c : Char) : Bool :=
  c.isAlpha || c.isDigit || c = '_'

/-- JS whitespace as recognised by `\s` / `String.prototype.trim`
(restricted to the ASCII whitespace characters that matter here). -/
def isSpaceChar (c : Char) : Bool :=
  c = ' ' || c = '\t' || c = '\n' || c = '\r' || c = '\x0b' || c = '\x0c'

/-- JS `String.prototype.trim`: strip leading and trailing whitespace. -/
def jsTrim (l : List Char) : List Char :=
  ((l.dropWhile isSpaceChar).reverse.dropWhile isSpaceChar).reverse

/-- `source.slice(a, b)` / `source.substring(a, b)` for `0 ≤ a ≤ b`. -/
def slice (s : List Char) (a b : Nat) : List Char :=
  (s.take b).drop a

/-- Convenience: a string literal as a character list. -/
def strL (s : String) : List Char := s.toList

/-- Does `'{'` occur at some position `≥ j`?  (Existence of the `\{` that
terminates a head match of `@(\w+)\s*([^{]*?)\s*\{`.) -/
def hasBraceFrom (s : List Char) (j : Nat) : Bool :=
  (s.drop j).contains '{'

/-- A head match of the annotation regex starts at position `p` iff `s[p]`
is `'@'`, `s[p+1]` is a word character, and some `'{'` occurs later (the
value run `[^{]*?` can absorb everything up to the first `'{'`). -/
def headAt (s : List Char) (p : Nat) : Bool :=
  (s[p]? == some '@') &&
    (match s[p+1]? with
     | some c => isWordChar c
     | none => false) &&
  hasBraceFrom s (p+2)

/-- Leftmost head-match position `≥ i` (fueled worker). -/
def findHeadF (s : List Char) : Nat → Nat → Option Nat
  | 0, _ => none
  | fuel+1, i =>
    if i < s.length then
      (if headAt s i then some i else findHeadF s fuel (i+1))
    else none

/-- Leftmost head-match position `≥ i`, as found by `regex.exec` with
`lastIndex = i`. -/
def findHead (s : List Char) (i : Nat) : Option Nat :=
  findHeadF s (s.length + 1) i

/-- End of the maximal `\w+` run starting at `j` (fueled worker). -/
def wordRunEndF (s : List Char) : Nat → Nat → Nat
  | 0, j => j
  | fuel+1, j =>
    match s[j]? with
    | some c => if isWordChar c then wordRunEndF s fuel (j+1) else j
    | none => j

/-- End of the maximal `\w+` run starting at `j`. -/
def wordRunEnd (s : List Char) (j : Nat) : Nat :=
  wordRunEndF s (s.length + 1) j

/-- Position of the first `'{'` at or after `j` (fueled worker). -/
def firstBraceF (s : List Char) : Nat → Nat → Option Nat
  | 0, _ => none
  | fuel+1, j =>
    match s[j]? with
    | some c => if c = '{' then some j else firstBraceF s fuel (j+1)
    | none => none

/-- Position of the first `'{'` at or after `j`. -/
def firstBrace (s : List Char) (j : Nat) : Option Nat :=
  firstBraceF s (s.length + 1) j

/-- One head match of `@(\w+)\s*([^{]*?)\s*\{` searched from `i`:
returns `(match.index, end of the name run, index of the opening brace)`.
The full match ends just past the brace, and group 2 trimmed equals the
text strictly between the name run and the brace, trimmed. -/
def headData (s : List Char) (i : Nat) : Option (Nat × Nat × Nat) :=
  match findHead s i with
  | none => none
  | some p =>
    let ne := wordRunEnd s (p+1)
    match firstBrace s ne with
    | some q => some (p, ne, q)
    | none => none

/-- The `while (index < source.length && depth > 0)` loop of
`Glossify._extractBody`, building `content` and returning the final
`(content, index, depth)` (fueled worker). -/
def extractGoF (s : List Char) : Nat → Nat → Nat → List Char → List Char × Nat × Nat
  | 0, index, depth, content => (content, index, depth)
  | fuel+1, index, depth, content =>
    if depth = 0 then (content, index, depth)
    else
      match s[index]? with
      | none => (content, index, depth)
      | some c =>
        if c = '{' then extractGoF s fuel (index+1) (depth+1) (content ++ [c])
        else if c = '}' then
          (if depth - 1 = 0 then extractGoF s fuel (index+1) (depth-1) content
           else extractGoF s fuel (index+1) (depth-1) (content ++ [c]))
        else extractGoF s fuel (index+1) depth (content ++ [c])

/-- `Glossify._extractBody(source, startIndex)`: depth-tracking body
extraction.  Returns `(content.trim(), endIndex)` on success, `none`
("null") when the input is exhausted with `depth ≠ 0`. -/
def extractBody (s : List Char) (startIndex : Nat) : Option (List Char × Nat) :=
  let r := extractGoF s (s.length + 1) startIndex 1 []
  if r.2.2 = 0 then some (jsTrim r.1, r.2.1 - 1) else none

/-- One parsed annotation object, as pushed by `Glossify.parse`
(`end` is spelled `endPos`). -/
structure Record where
  name : List Char
  value : List Char
  body : List Char
  start : Nat
  endPos : Nat
  raw : List Char
deriving Repr, DecidableEq

/-- The `while ((match = regex.exec(source)) !== null)` loop of
`Glossify.parse`.  After each head match `regex.lastIndex` is the position
just past the opening brace (`q + 1`); the loop itself never moves it
further, so the next search resumes there whether or not extraction
succeeded (fueled worker). -/
def parseLoopF (s : List Char) : Nat → Nat → List Record
  | 0, _ => []
  | fuel+1, i =>
    match headData s i with
    | none => []
    | some (p, ne, q) =>
      let rest := parseLoopF s fuel (q+1)
      match extractBody s (q+1) with
      | none => rest
      | some (content, e) =>
        { name := slice s (p+1) ne
          value := jsTrim (slice s ne q)
          body := content
          start := p
          endPos := e + 1
          raw := slice s p (e+1) } :: rest

/-- `Glossify.parse` restarted from scan position `i`. -/
def parseFrom (s : List Char) (i : Nat) : List Record :=
  parseLoopF s (s.length + 1) i

/-- `Glossify.parse(source)` (the method reads no instance state, so the
annotation list is a function of the source alone). -/
def parseAnns (s : List Char) : List Record :=
  parseFrom s 0

/-! ### Spec-side description of body extraction (for claim C2)

`specCloseF` follows the specification's words for §4.2: "scan character by
character; each opening delimiter increments depth, each closing delimiter
decrements it; the closing delimiter that brings depth to zero is the
match", returning that delimiter's index, or `none` when the input is
exhausted first. -/

/-- Depth update for one scanned character, per the spec's words. -/
def specStep (d : Nat) (c : Char) : Nat :=
  if c = '{' then d + 1 else if c = '}' then d - 1 else d

/-- Index of the closing delimiter that brings the depth to zero, scanning
from `j` with current depth `d` (fueled worker, spec-side definition). -/
def specCloseF (s : List Char) : Nat → Nat → Nat → Option Nat
  | 0, _, _ => none
  | fuel+1, j, d =>
    match s[j]? with
    | none => none
    | some c =>
      let d' := specStep d c
      if d' = 0 then some j else specCloseF s fuel (j+1) d'

/-- Index of the matching closing delimiter for a body that opens just
before position `j` (spec-side definition). -/
def specClose (s : List Char) (j : Nat) : Option Nat :=
  specCloseF s (s.length + 1) j 1

/-! ### Handler registry, execute and transform -/

/-- A JS value returned by a handler, as far as the core inspects it:
either a string (spliced by `transform`) or some non-string value
(opaque; the tag keeps distinct non-strings distinct). -/
inductive JsVal where
  | str (text : List Char)
  | other (tag : Nat)
deriving Repr, DecidableEq

/-- `typeof replacement === 'string'`. -/
def JsVal.isStr : JsVal → Bool
  | .str _ => true
  | .other _ => false

/-- A `Glossify` instance: its only state is the `handlers` map
(name → callback).  `κ` is the type of the opaque context argument. -/
structure Glossify (κ : Type) where
  handlers : List Char → Option (List Char → List Char → κ → JsVal)

/-- `register(annotationType, handler)`: `Map.set` semantics (last write
wins). -/
def Glossify.register (g : Glossify κ) (annotationType : List Char)
    (handler : List Char → List Char → κ → JsVal) : Glossify κ :=
  ⟨fun n => if n = annotationType then some handler else g.handlers n⟩

/-- `parse` as the instance method: its body reads no instance state. -/
def Glossify.parse (_g : Glossify κ) (source : List Char) : List Record :=
  parseAnns source

/-- One `results.push({ annotation: ..., value: ..., result })` entry of
`Glossify.execute`. -/
structure ExecEntry where
  annotation : List Char
  value : List Char
  result : JsVal
deriving Repr, DecidableEq

/-- The `for (const annotation of annotations)` loop of `Glossify.execute`,
with the `results` accumulator. -/
def executeGo (g : Glossify κ) (ctx : κ) :
    List Record → List ExecEntry → List ExecEntry
  | [], results => results
  | a :: rest, results =>
    match g.handlers a.name with
    | some handler =>
      executeGo g ctx rest
        (results ++ [{ annotation := a.name, value := a.value,
                       result := handler a.value a.body ctx }])
    | none => executeGo g ctx rest results

/-- `Glossify.execute(source, context)`. -/
def Glossify.execute (g : Glossify κ) (source : List Char) (ctx : κ) :
    List ExecEntry :=
  executeGo g ctx (g.parse source) []

/-- Clamp a JS index argument into `[0, len]` (`String.prototype.substring`
coercion of each argument). -/
def clampIdx (len : Nat) (i : Int) : Nat :=
  (min i (len : Int)).toNat

/-- `result.substring(a, b)` with JS semantics: both arguments are clamped
into `[0, length]` and swapped if out of order. -/
def jsSubstring (s : List Char) (a b : Int) : List Char :=
  let a' := clampIdx s.length a
  let b' := clampIdx s.length b
  (s.take (max a' b')).drop (min a' b')

/-- The `for (const annotation of annotations)` loop of
`Glossify.transform`, carrying the current `result` string and the running
integer `offset`. -/
def transformGo (g : Glossify κ) (ctx : κ) :
    List Record → List Char → Int → List Char
  | [], result, _ => result
  | a :: rest, result, offset =>
    match g.handlers a.name with
    | none => transformGo g ctx rest result offset
    | some handler =>
      match handler a.value a.body ctx with
      | .str replacement =>
        let start : Int := (a.start : Int) + offset
        let e : Int := (a.endPos : Int) + offset
        let result' := jsSubstring result 0 start ++ replacement ++
          jsSubstring result e (result.length : Int)
        transformGo g ctx rest result'
          (offset + (replacement.length : Int) - ((a.endPos : Int) - (a.start : Int)))
      | .other _ => transformGo g ctx rest result offset

/-- `Glossify.transform(source, context)`. -/
def Glossify.transform (g : Glossify κ) (source : List Char) (ctx : κ) :
    List Char :=
  transformGo g ctx (g.parse source) source 0

/-- Spec-side splice (for claim C3): the well-formed left-to-right
replacement of disjoint spans — text outside the spans is kept verbatim,
each string result replaces exactly its record's `[start, end)` span.
`pos` is the position in the original source up to which output has been
emitted. -/
def spliceGo (src : List Char) (g : Glossify κ) (ctx : κ) :
    Nat → List Record → List Char
  | pos, [] => src.drop pos
  | pos, r :: rest =>
    match g.handlers r.name with
    | none => spliceGo src g ctx pos rest
    | some handler =>
      match handler r.value r.body ctx with
      | .str replacement =>
        slice src pos r.start ++ replacement ++ spliceGo src g ctx r.endPos rest
      | .other _ => spliceGo src g ctx pos rest

/-- Decidable check that a record list is ordered with pairwise disjoint
`[start, end)` spans (each record ends at or before the next one starts). -/
def chainDisjoint : List Record → Bool
  | [] => true
  | [_] => true
  | a :: b :: rest => decide (a.endPos ≤ b.start) && chainDisjoint (b :: rest)

/-! ### Route pattern compilation and matching (`GlossifyServer._matchRoute`)

The code builds `new RegExp('^' + path.replace(/:[^/]+/g, '([^/]+)')
.replace(/\//g, '\\/') + '$')` and matches the URL path against it.  We
embed the compiled pattern as a token list: a `:`-run becomes a capture
`([^/]+)`, `.` stays an (unescaped) regex wildcard, and every other
character of the route path is modelled as a literal.  (Characters with
another regex special meaning, such as `*` or `(`, are outside the scope of
this model; route paths here consist of ordinary path characters, `/`, `:`
and `.`.) -/

/-- One token of the compiled route regex. -/
inductive RTok where
  | lit (c : Char)
  | cap
  | any
deriving Repr, DecidableEq

/-- `path.replace(/:[^/]+/g, '([^/]+)').replace(/\//g, '\\/')` as a token
list (fueled worker).  A `':'` followed by one or more non-`'/'`
characters becomes a capture; a lone `':'` stays literal. -/
def compilePathF : Nat → List Char → List RTok
  | 0, _ => []
  | _, [] => []
  | fuel+1, c :: rest =>
    if c = ':' then
      let run := rest.takeWhile (fun d => !(d = '/'))
      if run.isEmpty then RTok.lit ':' :: compilePathF fuel rest
      else RTok.cap :: compilePathF fuel (rest.drop run.length)
    else
      (if c = '.' then RTok.any else RTok.lit c) :: compilePathF fuel rest

/-- Compiled token list of a route path. -/
def compilePath (p : List Char) : List RTok :=
  compilePathF (p.length + 1) p

/-- `(route.path.match(/:[^/]+/g) || []).map(p => p.slice(1))`: the capture
names, in pattern order (fueled worker). -/
def paramNamesF : Nat → List Char → List (List Char)
  | 0, _ => []
  | _, [] => []
  | fuel+1, c :: rest =>
    if c = ':' then
      let run := rest.takeWhile (fun d => !(d = '/'))
      if run.isEmpty then paramNamesF fuel rest
      else run :: paramNamesF fuel (rest.drop run.length)
    else paramNamesF fuel rest

/-- Capture names of a route path, in order. -/
def paramNames (p : List Char) : List (List Char) :=
  paramNamesF (p.length + 1) p

/-- Anchored matching of the compiled token list against a path, with JS
backtracking semantics: a capture `([^/]+)` greedily takes the longest
run of non-`'/'` characters and backtracks one character at a time; `.`
matches any character except a line terminator.  On success, returns the
captured substrings in order (fueled worker; the fuel dominates the token
list length). -/
def matchToksF : Nat → List RTok → List Char → Option (List (List Char))
  | 0, _, _ => none
  | _+1, [], xs => if xs.isEmpty then some [] else none
  | fuel+1, RTok.lit c :: ts, xs =>
    match xs with
    | [] => none
    | x :: rest => if x = c then matchToksF fuel ts rest else none
  | fuel+1, RTok.any :: ts, xs =>
    match xs with
    | [] => none
    | x :: rest =>
      if x = '\n' || x = '\r' || x = '\u2028' || x = '\u2029' then none
      else matchToksF fuel ts rest
  | fuel+1, RTok.cap :: ts, xs =>
    let m := (xs.takeWhile (fun d => !(d = '/'))).length
    List.findSome?
      (fun k => (matchToksF fuel ts (xs.drop k)).map (fun cs => xs.take k :: cs))
      ((List.range m).map (fun j => m - j))

/-- Anchored match of a compiled pattern against a concrete path. -/
def matchToks (ts : List RTok) (xs : List Char) : Option (List (List Char)) :=
  matchToksF (ts.length + 1) ts xs

/-- The per-route body of `GlossifyServer._matchRoute`: match `urlPath`
against one route pattern; on success the captured values are zipped
positionally with the parameter names. -/
def matchRoutePattern (routePath urlPath : List Char) :
    Option (List (List Char × List Char)) :=
  match matchToks (compilePath routePath) urlPath with
  | some caps => some (List.zip (paramNames routePath) caps)
  | none => none

/-- What a successful anchored match means: the path decomposes into the
pattern's pieces — a literal consumes exactly its own character, `.` one
arbitrary non-terminator character, and each capture a non-empty run of
non-separator characters, the captures being collected in order. -/
inductive Matches : List RTok → List Char → List (List Char) → Prop where
  | nil : Matches [] [] []
  | lit {c ts xs cs} : Matches ts xs cs → Matches (RTok.lit c :: ts) (c :: xs) cs
  | any {c ts xs cs} :
      ¬(c = '\n' ∨ c = '\r' ∨ c = '\u2028' ∨ c = '\u2029') →
      Matches ts xs cs → Matches (RTok.any :: ts) (c :: xs) cs
  | cap {v ts xs cs} : v ≠ [] → (∀ c ∈ v, ¬(c = '/')) →
      Matches ts xs cs → Matches (RTok.cap :: ts) (v ++ xs) (v :: cs)

/-! ## Lemmas about the head scanner -/

theorem findHeadF_le {s : List Char} :
    ∀ {fuel i p : Nat}, findHeadF s fuel i = some p → i ≤ p := by
  intro fuel
  induction fuel with
  | zero => intro i p h; simp [findHeadF] at h
  | succ fuel ih =>
    intro i p h
    simp only [findHeadF] at h
    split at h
    · split at h
      · exact (Option.some.injEq _ _ ▸ h) ▸ Nat.le_refl _
      · exact Nat.le_of_succ_le (ih h)
    · exact absurd h (by simp)

theorem findHeadF_headAt {s : List Char} :
    ∀ {fuel i p : Nat}, findHeadF s fuel i = some p → headAt s p = true := by
  intro fuel
  induction fuel with
  | zero => intro i p h; simp [findHeadF] at h
  | succ fuel ih =>
    intro i p h
    simp only [findHeadF] at h
    split at h
    · split at h
      · cases h; assumption
      · exact ih h
    · exact absurd h (by simp)

theorem findHeadF_min {s : List Char} :
    ∀ {fuel i p : Nat}, findHeadF s fuel i = some p →
      ∀ m, i ≤ m → m < p → headAt s m = false := by
  intro fuel
  induction fuel with
  | zero => intro i p h; simp [findHeadF] at h
  | succ fuel ih =>
    intro i p h m him hmp
    simp only [findHeadF] at h
    split at h
    · split at h
      · cases h; omega
      · rename_i hno
        rcases Nat.eq_or_lt_of_le him with rfl | hlt
        · simpa using hno
        · exact ih h m hlt hmp
    · exact absurd h (by simp)

theorem findHeadF_intro_some {s : List Char} :
    ∀ {fuel i p : Nat}, s.length ≤ i + fuel → i ≤ p → headAt s p = true →
      (∀ m, i ≤ m → m < p → headAt s m = false) →
      findHeadF s fuel i = some p := by
  have hplen : ∀ {p : Nat}, headAt s p = true → p < s.length := by
    intro p hp
    by_contra hge
    have : s[p]? = none := by
      simp [List.getElem?_eq_none_iff]; omega
    simp [headAt, this] at hp
  intro fuel
  induction fuel with
  | zero =>
    intro i p hfuel hip hp _
    exact absurd (hplen hp) (by omega)
  | succ fuel ih =>
    intro i p hfuel hip hp hmin
    have hpl : p < s.length := hplen hp
    simp only [findHeadF, if_pos (show i < s.length by omega)]
    rcases Nat.eq_or_lt_of_le hip with rfl | hlt
    · simp [hp]
    · rw [if_neg (by simp [hmin i (Nat.le_refl i) hlt])]
      exact ih (by omega) hlt hp (fun m h1 h2 => hmin m (by omega) h2)

theorem findHeadF_intro_none {s : List Char} :
    ∀ {fuel i : Nat}, (∀ m, i ≤ m → headAt s m = false) →
      findHeadF s fuel i = none := by
  intro fuel
  induction fuel with
  | zero => intro i _; simp [findHeadF]
  | succ fuel ih =>
    intro i h
    simp only [findHeadF]
    split
    · rw [if_neg (by simp [h i (Nat.le_refl i)])]
      exact ih (fun m hm => h m (by omega))
    · rfl

theorem findHead_le {s : List Char} {i p : Nat} (h : findHead s i = some p) :
    i ≤ p := findHeadF_le h

theorem findHead_headAt {s : List Char} {i p : Nat}
    (h : findHead s i = some p) : headAt s p = true := findHeadF_headAt h

theorem findHead_min {s : List Char} {i p : Nat} (h : findHead s i = some p) :
    ∀ m, i ≤ m → m < p → headAt s m = false := findHeadF_min h

theorem findHead_intro_some {s : List Char} {i p : Nat} (hip : i ≤ p)
    (hp : headAt s p = true) (hmin : ∀ m, i ≤ m → m < p → headAt s m = false) :
    findHead s i = some p :=
  findHeadF_intro_some (by omega) hip hp hmin

theorem findHead_intro_none {s : List Char} {i : Nat}
    (h : ∀ m, i ≤ m → headAt s m = false) : findHead s i = none :=
  findHeadF_intro_none h

/-! ## Lemmas about the word-run scanner -/

theorem wordRunEndF_ge {s : List Char} :
    ∀ {fuel j : Nat}, j ≤ wordRunEndF s fuel j := by
  intro fuel
  induction fuel with
  | zero => intro j; simp [wordRunEndF]
  | succ fuel ih =>
    intro j
    simp only [wordRunEndF]
    split
    · split
      · exact Nat.le_of_succ_le (Nat.succ_le_of_lt (Nat.lt_of_lt_of_le (Nat.lt_succ_self j) ih))
      · exact Nat.le_refl j
    · exact Nat.le_refl j

theorem wordRunEndF_le_of_not_word {s : List Char} {m : Nat} {c : Char}
    (hm : s[m]? = some c) (hc : isWordChar c = false) :
    ∀ {fuel j : Nat}, j ≤ m → wordRunEndF s fuel j ≤ m := by
  intro fuel
  induction fuel with
  | zero => intro j h; simpa [wordRunEndF] using h
  | succ fuel ih =>
    intro j hjm
    simp only [wordRunEndF]
    split
    · rename_i c' hc'
      split
      · have hjne : j ≠ m := by
          rintro rfl; rw [hm] at hc'; cases hc'; simp_all
        exact ih (by omega)
      · exact hjm
    · exact hjm

theorem wordRunEndF_word {s : List Char} :
    ∀ {fuel j : Nat}, ∀ m, j ≤ m → m < wordRunEndF s fuel j →
      ∃ c, s[m]? = some c ∧ isWordChar c = true := by
  intro fuel
  induction fuel with
  | zero => intro j m h1 h2; simp [wordRunEndF] at h2; omega
  | succ fuel ih =>
    intro j m h1 h2
    simp only [wordRunEndF] at h2
    split at h2
    · rename_i c hc
      split at h2
      · rcases Nat.eq_or_lt_of_le h1 with rfl | hlt
        · exact ⟨c, hc, by assumption⟩
        · exact ih m hlt h2
      · omega
    · omega

theorem wordRunEnd_step {s : List Char} {j : Nat} {c : Char}
    (hc : s[j]? = some c) (hw : isWordChar c = true) :
    j + 1 ≤ wordRunEnd s j := by
  have hj : j < s.length := (List.getElem?_eq_some_iff.mp hc).1
  unfold wordRunEnd
  have : s.length + 1 = s.length + 1 := rfl
  simp only [wordRunEndF, hc, hw, if_pos]
  exact wordRunEndF_ge

/-! ## Lemmas about the brace scanner -/

theorem firstBraceF_le {s : List Char} :
    ∀ {fuel j q : Nat}, firstBraceF s fuel j = some q → j ≤ q := by
  intro fuel
  induction fuel with
  | zero => intro j q h; simp [firstBraceF] at h
  | succ fuel ih =>
    intro j q h
    simp only [firstBraceF] at h
    split at h
    · split at h
      · cases h; exact Nat.le_refl _
      · exact Nat.le_of_succ_le (ih h)
    · cases h

theorem firstBraceF_brace {s : List Char} :
    ∀ {fuel j q : Nat}, firstBraceF s fuel j = some q → s[q]? = some '{' := by
  intro fuel
  induction fuel with
  | zero => intro j q h; simp [firstBraceF] at h
  | succ fuel ih =>
    intro j q h
    simp only [firstBraceF] at h
    split at h
    · rename_i c hc
      split at h
      · cases h; simp_all
      · exact ih h
    · cases h

theorem firstBraceF_min {s : List Char} :
    ∀ {fuel j q : Nat}, firstBraceF s fuel j = some q →
      ∀ m, j ≤ m → m < q → s[m]? ≠ some '{' := by
  intro fuel
  induction fuel with
  | zero => intro j q h; simp [firstBraceF] at h
  | succ fuel ih =>
    intro j q h m hjm hmq
    simp only [firstBraceF] at h
    split at h
    · rename_i c hc
      split at h
      · cases h; omega
      · rcases Nat.eq_or_lt_of_le hjm with rfl | hlt
        · rw [hc]; simp; rintro rfl; simp_all
        · exact ih h m hlt hmq
    · cases h

theorem firstBraceF_intro_some {s : List Char} :
    ∀ {fuel j q : Nat}, s.length ≤ j + fuel → j ≤ q → s[q]? = some '{' →
      (∀ m, j ≤ m → m < q → s[m]? ≠ some '{') →
      firstBraceF s fuel j = some q := by
  intro fuel
  induction fuel with
  | zero =>
    intro j q hfuel hjq hq _
    have : q < s.length := (List.getElem?_eq_some_iff.mp hq).1
    omega
  | succ fuel ih =>
    intro j q hfuel hjq hq hmin
    have hql : q < s.length := (List.getElem?_eq_some_iff.mp hq).1
    have hjl : j < s.length := by omega
    simp only [firstBraceF]
    rcases Nat.eq_or_lt_of_le hjq with rfl | hlt
    · simp [hq]
    · have hne : s[j]? ≠ some '{' := hmin j (Nat.le_refl j) hlt
      obtain ⟨c, hc⟩ : ∃ c, s[j]? = some c :=
        ⟨s[j], List.getElem?_eq_getElem hjl⟩
      rw [hc]
      have : ¬ c = '{' := by rintro rfl; exact hne hc
      simp only [this, if_false]
      exact ih (by omega) hlt hq (fun m h1 h2 => hmin m (by omega) h2)

theorem firstBraceF_intro_none {s : List Char} :
    ∀ {fuel j : Nat}, (∀ m, j ≤ m → s[m]? ≠ some '{') →
      firstBraceF s fuel j = none := by
  intro fuel
  induction fuel with
  | zero => intro j _; simp [firstBraceF]
  | succ fuel ih =>
    intro j h
    simp only [firstBraceF]
    split
    · rename_i c hc
      have : ¬ c = '{' := by rintro rfl; exact h j (Nat.le_refl j) hc
      simp only [this, if_false]
      exact ih (fun m hm => h m (by omega))
    · rfl

theorem firstBrace_le {s : List Char} {j q : Nat}
    (h : firstBrace s j = some q) : j ≤ q := firstBraceF_le h

theorem firstBrace_brace {s : List Char} {j q : Nat}
    (h : firstBrace s j = some q) : s[q]? = some '{' := firstBraceF_brace h

theorem firstBrace_min {s : List Char} {j q : Nat}
    (h : firstBrace s j = some q) :
    ∀ m, j ≤ m → m < q → s[m]? ≠ some '{' := firstBraceF_min h

theorem firstBrace_intro_some {s : List Char} {j q : Nat} (hjq : j ≤ q)
    (hq : s[q]? = some '{') (hmin : ∀ m, j ≤ m → m < q → s[m]? ≠ some '{') :
    firstBrace s j = some q :=
  firstBraceF_intro_some (by omega) hjq hq hmin

/-! ## Lemmas about head matches -/

theorem headAt_at {s : List Char} {p : Nat} (h : headAt s p = true) :
    s[p]? = some '@' ∧ (∃ c, s[p+1]? = some c ∧ isWordChar c = true) ∧
      hasBraceFrom s (p+2) = true := by
  simp only [headAt, Bool.and_eq_true, beq_iff_eq] at h
  refine ⟨h.1.1, ?_, h.2⟩
  rcases h.1 with ⟨h1, h2⟩
  revert h2
  match hc : s[p+1]? with
  | some c => exact fun hw => ⟨c, rfl, hw⟩
  | none => simp

theorem headData_bounds {s : List Char} {i p ne q : Nat}
    (h : headData s i = some (p, ne, q)) :
    i ≤ p ∧ p + 2 ≤ ne ∧ ne ≤ q ∧ q < s.length ∧ s[q]? = some '{' ∧
      s[p]? = some '@' ∧ headAt s p = true := by
  unfold headData at h
  cases hf : findHead s i with
  | none => rw [hf] at h; cases h
  | some p' =>
    rw [hf] at h
    cases hb : firstBrace s (wordRunEnd s (p'+1)) with
    | none => simp only [hb] at h; cases h
    | some q' =>
      simp only [hb] at h
      cases h
      have hhd := findHead_headAt hf
      obtain ⟨hat, ⟨c, hc, hw⟩, _⟩ := headAt_at hhd
      exact ⟨findHead_le hf, wordRunEnd_step hc hw, firstBrace_le hb,
        (List.getElem?_eq_some_iff.mp (firstBrace_brace hb)).1,
        firstBrace_brace hb, hat, hhd⟩

theorem headData_none_of_ge {s : List Char} {i : Nat} (h : s.length ≤ i) :
    headData s i = none := by
  unfold headData findHead
  rw [show s.length + 1 = s.length + 1 from rfl]
  simp only [findHeadF, if_neg (by omega : ¬ i < s.length)]

/-! ## Fuel irrelevance for the parse loop -/

theorem parseLoopF_fuel {s : List Char} :
    ∀ {fuel₁ fuel₂ i : Nat}, s.length + 1 ≤ fuel₁ + i → s.length + 1 ≤ fuel₂ + i →
      parseLoopF s fuel₁ i = parseLoopF s fuel₂ i := by
  intro fuel₁
  induction fuel₁ with
  | zero =>
    intro fuel₂ i h1 h2
    have hd : headData s i = none := headData_none_of_ge (by omega)
    cases fuel₂ with
    | zero => rfl
    | succ k => simp [parseLoopF, hd]
  | succ fuel₁ ih =>
    intro fuel₂ i h1 h2
    cases fuel₂ with
    | zero =>
      have hd : headData s i = none := headData_none_of_ge (by omega)
      simp [parseLoopF, hd]
    | succ k =>
      cases hd : headData s i with
      | none => simp [parseLoopF, hd]
      | some t =>
        obtain ⟨p, ne, q⟩ := t
        have hb := headData_bounds hd
        have heq : parseLoopF s fuel₁ (q+1) = parseLoopF s k (q+1) :=
          ih (by omega) (by omega)
        simp only [parseLoopF, hd]
        cases hext : extractBody s (q+1) with
        | none => simpa using heq
        | some ce => obtain ⟨content, e⟩ := ce; simpa using heq

theorem parseFrom_eq_parseLoopF {s : List Char} {fuel i : Nat}
    (h : s.length + 1 ≤ fuel + i) : parseFrom s i = parseLoopF s fuel i :=
  parseLoopF_fuel (by omega) h

/-- One unfolding of `parseFrom` at a successful head match. -/
theorem parseFrom_unfold_some {s : List Char} {i p ne q : Nat}
    (hd : headData s i = some (p, ne, q)) :
    parseFrom s i =
      (match extractBody s (q+1) with
       | none => parseFrom s (q+1)
       | some (content, e) =>
         { name := slice s (p+1) ne
           value := jsTrim (slice s ne q)
           body := content
           start := p
           endPos := e + 1
           raw := slice s p (e+1) } :: parseFrom s (q+1)) := by
  have hb := headData_bounds hd
  have hrec : parseLoopF s s.length (q+1) = parseFrom s (q+1) :=
    (parseFrom_eq_parseLoopF (by omega)).symm
  unfold parseFrom
  simp only [parseLoopF, hd]
  cases hext : extractBody s (q+1) with
  | none => simpa using hrec
  | some ce => obtain ⟨content, e⟩ := ce; simpa using hrec

/-- One unfolding of `parseFrom` at a failed head search. -/
theorem parseFrom_unfold_none {s : List Char} {i : Nat}
    (hd : headData s i = none) : parseFrom s i = [] := by
  unfold parseFrom
  rw [show s.length + 1 = s.length + 1 from rfl]
  simp [parseLoopF, hd]

/-! ## Slice facts -/

theorem slice_self {s : List Char} {j : Nat} : slice s j j = [] := by
  apply List.drop_eq_nil_of_le
  simp

theorem slice_cons {s : List Char} {j e : Nat} {c : Char}
    (hc : s[j]? = some c) (hje : j < e) :
    slice s j e = c :: slice s (j+1) e := by
  obtain ⟨hj, rfl⟩ := List.getElem?_eq_some_iff.mp hc
  unfold slice
  have hlt : j < (s.take e).length := by simp; omega
  rw [List.drop_eq_getElem_cons hlt, List.getElem_take]

/-! ## The extractor implements the spec-side depth scan -/

theorem specCloseF_le_lt {s : List Char} :
    ∀ {fuel j d e : Nat}, specCloseF s fuel j d = some e →
      j ≤ e ∧ e < s.length := by
  intro fuel
  induction fuel with
  | zero => intro j d e h; simp [specCloseF] at h
  | succ fuel ih =>
    intro j d e h
    simp only [specCloseF] at h
    split at h
    · cases h
    · split at h
      · cases h
        rename_i hc _
        exact ⟨Nat.le_refl _, (List.getElem?_eq_some_iff.mp hc).1⟩
      · have := ih h
        omega

theorem specCloseF_brace {s : List Char} :
    ∀ {fuel j d e : Nat}, 1 ≤ d → specCloseF s fuel j d = some e →
      s[e]? = some '}' := by
  intro fuel
  induction fuel with
  | zero => intro j d e _ h; simp [specCloseF] at h
  | succ fuel ih =>
    intro j d e hd h
    simp only [specCloseF] at h
    split at h
    · cases h
    · rename_i c hc
      split at h
      · cases h
        rename_i hz
        unfold specStep at hz
        split at hz
        · omega
        · split at hz
          · rename_i hbr; rw [hc, hbr]
          · omega
      · rename_i hnz
        exact ih (by omega) h

/-- At depth 0 the extraction loop stops immediately. -/
theorem extractGoF_depth_zero {s : List Char} {fuel j : Nat} {acc : List Char} :
    extractGoF s fuel j 0 acc = (acc, j, 0) := by
  cases fuel <;> simp [extractGoF]

theorem extractGoF_spec {s : List Char} :
    ∀ (fuel j d : Nat) (acc : List Char), 1 ≤ d → s.length ≤ j + fuel →
      (∀ e, specCloseF s fuel j d = some e →
        extractGoF s fuel j d acc = (acc ++ slice s j e, e + 1, 0)) ∧
      (specCloseF s fuel j d = none → (extractGoF s fuel j d acc).2.2 ≠ 0) := by
  intro fuel
  induction fuel with
  | zero =>
    intro j d acc hd _
    constructor
    · intro e h; simp [specCloseF] at h
    · intro _; simp [extractGoF]; omega
  | succ fuel ih =>
    intro j d acc hd hfuel
    have hdnz : ¬ d = 0 := by omega
    constructor
    · intro e h
      simp only [specCloseF] at h
      simp only [extractGoF, hdnz, if_false]
      split at h
      · cases h
      · rename_i c hc
        by_cases hbo : c = '{'
        · subst hbo
          have hnz : ¬ specStep d '{' = 0 := by simp [specStep]
          rw [if_neg hnz] at h
          simp only [if_pos rfl]
          have hrec := (ih (j+1) (d+1) (acc ++ ['{'])
            (by omega) (by omega)).1 e (by simpa [specStep] using h)
          rw [hrec]
          have hje : j < e := by
            have := (specCloseF_le_lt (by simpa [specStep] using h)).1
            omega
          rw [slice_cons hc hje]
          simp
        · by_cases hbc : c = '}'
          · subst hbc
            simp only [if_neg (by simp : ¬ ('}' : Char) = '{'), if_pos rfl]
            by_cases hone : d = 1
            · subst hone
              have hz : specStep 1 '}' = 0 := by simp [specStep]
              rw [if_pos hz] at h
              cases h
              simp only [show (1:Nat) - 1 = 0 from rfl, if_pos rfl]
              rw [extractGoF_depth_zero, slice_self]
              simp
            · have hnz : ¬ specStep d '}' = 0 := by
                simp [specStep]; omega
              rw [if_neg hnz] at h
              have hd1 : ¬ d - 1 = 0 := by omega
              rw [if_neg hd1]
              have hrec := (ih (j+1) (d - 1) (acc ++ ['}'])
                (by omega) (by omega)).1 e (by simpa [specStep] using h)
              rw [hrec]
              have hje : j < e := by
                have := (specCloseF_le_lt (by simpa [specStep] using h)).1
                omega
              rw [slice_cons hc hje]
              simp
          · rw [if_neg hbo, if_neg hbc]
            have hnz : ¬ specStep d c = 0 := by
              simp [specStep, hbo, hbc]; omega
            rw [if_neg hnz] at h
            have hrec := (ih (j+1) d (acc ++ [c])
              (by omega) (by omega)).1 e (by simpa [specStep, hbo, hbc] using h)
            rw [hrec]
            have hje : j < e := by
              have := (specCloseF_le_lt (by simpa [specStep, hbo, hbc] using h)).1
              omega
            rw [slice_cons hc hje]
            simp
    · intro h
      simp only [specCloseF] at h
      simp only [extractGoF, hdnz, if_false]
      split at h
      · rename_i hc
        simp
        omega
      · rename_i c hc
        split at h
        · cases h
        · rename_i hnz
          by_cases hbo : c = '{'
          · subst hbo
            simp only [if_pos rfl]
            exact (ih (j+1) (d+1) (acc ++ ['{'])
              (by omega) (by omega)).2 (by simpa [specStep] using h)
          · by_cases hbc : c = '}'
            · subst hbc
              simp only [if_neg (by simp : ¬ ('}' : Char) = '{'), if_pos rfl]
              have hd1 : ¬ d - 1 = 0 := by
                intro hzero
                apply hnz
                simp [specStep]
                omega
              rw [if_neg hd1]
              exact (ih (j+1) (d - 1) (acc ++ ['}'])
                (by omega) (by omega)).2 (by simpa [specStep] using h)
            · rw [if_neg hbo, if_neg hbc]
              exact (ih (j+1) d (acc ++ [c])
                (by omega) (by omega)).2 (by simpa [specStep, hbo, hbc] using h)

/-- `_extractBody` computes exactly the spec-side scan: on success it
returns the verbatim interior (trimmed only at the very end) together with
the index of the matching closing delimiter, and it fails exactly when the
depth never returns to zero. -/
theorem extractBody_eq_spec (s : List Char) (i : Nat) :
    extractBody s i = (specClose s i).map (fun e => (jsTrim (slice s i e), e)) := by
  unfold extractBody specClose
  cases hsc : specCloseF s (s.length + 1) i 1 with
  | some e =>
    have := (extractGoF_spec (s.length + 1) i 1 [] (by omega) (by omega)).1 e hsc
    rw [this]
    simp
  | none =>
    have := (extractGoF_spec (s.length + 1) i 1 [] (by omega) (by omega)).2 hsc
    simp only [Option.map_none']
    rw [if_neg (by simpa using this)]

theorem specClose_le_lt {s : List Char} {i e : Nat}
    (h : specClose s i = some e) : i ≤ e ∧ e < s.length :=
  specCloseF_le_lt h

theorem specClose_brace {s : List Char} {i e : Nat}
    (h : specClose s i = some e) : s[e]? = some '}' :=
  specCloseF_brace (by omega) h

/-- Success data of `_extractBody`, in spec-side terms. -/
theorem extractBody_some {s : List Char} {i : Nat} {content : List Char}
    {e : Nat} (h : extractBody s i = some (content, e)) :
    specClose s i = some e ∧ content = jsTrim (slice s i e) ∧
      i ≤ e ∧ e < s.length := by
  rw [extractBody_eq_spec] at h
  cases hsc : specClose s i with
  | none => rw [hsc] at h; cases h
  | some e' =>
    rw [hsc] at h
    simp only [Option.map_some'] at h
    cases h
    exact ⟨rfl, rfl, (specClose_le_lt hsc).1, (specClose_le_lt hsc).2⟩

/-! ## Facts about parsed records -/

theorem parseLoopF_mem {s : List Char} :
    ∀ fuel i, ∀ r ∈ parseLoopF s fuel i,
      i ≤ r.start ∧ r.start < r.endPos ∧ r.endPos ≤ s.length ∧
        r.raw = slice s r.start r.endPos := by
  intro fuel
  induction fuel with
  | zero => intro i r hr; simp [parseLoopF] at hr
  | succ fuel ih =>
    intro i r hr
    simp only [parseLoopF] at hr
    cases hd : headData s i with
    | none => rw [hd] at hr; simp at hr
    | some t =>
      obtain ⟨p, ne, q⟩ := t
      rw [hd] at hr
      obtain ⟨hip, hpne, hneq, hql, _, _, _⟩ := headData_bounds hd
      simp only at hr
      cases hext : extractBody s (q+1) with
      | none =>
        rw [hext] at hr
        have := ih (q+1) r hr
        refine ⟨by omega, this.2⟩
      | some ce =>
        obtain ⟨content, e⟩ := ce
        rw [hext] at hr
        obtain ⟨_, _, hqe, hel⟩ := extractBody_some hext
        rcases List.mem_cons.mp hr with rfl | hmem
        · exact ⟨by simp; omega, by simp; omega, by simp; omega, rfl⟩
        · have := ih (q+1) r hmem
          refine ⟨by omega, this.2⟩

theorem parseLoopF_pairwise {s : List Char} :
    ∀ fuel i, List.Pairwise (fun a b => a.start < b.start) (parseLoopF s fuel i) := by
  intro fuel
  induction fuel with
  | zero => intro i; simp [parseLoopF]
  | succ fuel ih =>
    intro i
    simp only [parseLoopF]
    cases hd : headData s i with
    | none => simp
    | some t =>
      obtain ⟨p, ne, q⟩ := t
      obtain ⟨hip, hpne, hneq, hql, _, _, _⟩ := headData_bounds hd
      simp only
      cases hext : extractBody s (q+1) with
      | none => exact ih (q+1)
      | some ce =>
        obtain ⟨content, e⟩ := ce
        refine List.Pairwise.cons ?_ (ih (q+1))
        intro r hr
        have := (parseLoopF_mem fuel (q+1) r hr).1
        simp
        omega

theorem parseAnns_mem {source : List Char} {r : Record}
    (hr : r ∈ parseAnns source) :
    r.start < r.endPos ∧ r.endPos ≤ source.length ∧
      r.raw = slice source r.start r.endPos :=
  (parseLoopF_mem _ 0 r hr).2

/-! ## Claim C1 -/

/-- C1, counterexample: on `"@a x \x7b@b y \x7bz\x7d\x7d"` one `parse` call returns a
record for the nested `@b` annotation as well, and its span lies strictly
inside the outer record's `[start, end)` span — the scan cursor does not
advance past the outer closing delimiter, records are not only top-level,
and the two returned records overlap. -/
theorem c1_counterexample :
    parseAnns (strL "@a x \x7b@b y \x7bz\x7d\x7d") =
      [{ name := strL "a", value := strL "x", body := strL "@b y \x7bz\x7d",
         start := 0, endPos := 15, raw := strL "@a x \x7b@b y \x7bz\x7d\x7d" },
       { name := strL "b", value := strL "y", body := strL "z",
         start := 6, endPos := 14, raw := strL "@b y \x7bz\x7d" }] ∧
    (0 : Nat) < 6 ∧ (6 : Nat) < 15 := by
  constructor
  · decide
  · decide

/-- C1, amended: records are still produced in strictly increasing order of
their opening delimiter (`start`), but the scan cursor advances only to
just past the *opening* delimiter of each head match, so annotations nested
inside an earlier record's body are also emitted and spans of returned
records may overlap. -/
theorem c1_amended_order (source : List Char) :
    List.Pairwise (fun a b => a.start < b.start) (parseAnns source) :=
  parseLoopF_pairwise _ 0

/-! ## Claim C4 -/

/-- C4: every record returned by `parse` satisfies
`raw = source.slice(start, end)` and `start < end`. -/
theorem c4_raw_slice (source : List Char) (r : Record)
    (hr : r ∈ parseAnns source) :
    r.raw = slice source r.start r.endPos ∧ r.start < r.endPos :=
  ⟨(parseAnns_mem hr).2.2, (parseAnns_mem hr).1⟩

/-- C4, witness at a concrete input. -/
theorem c4_raw_slice_witness :
    ({ name := strL "a", value := [], body := strL "x",
       start := 0, endPos := 5, raw := strL "@a\x7bx\x7d" } : Record).raw =
        slice (strL "@a\x7bx\x7d") 0 5 ∧ (0 : Nat) < 5 :=
  c4_raw_slice (strL "@a\x7bx\x7d")
    { name := strL "a", value := [], body := strL "x",
      start := 0, endPos := 5, raw := strL "@a\x7bx\x7d" }
    (by decide)

/-! ## Claim C2 -/

/-- C2: `_extractBody` implements the spec's depth-tracking scan exactly.
On success the result is the verbatim text from `startIndex` up to (and
excluding) the closing delimiter that brings the depth to zero — interior
delimiters, including nested closing ones, retained — trimmed only after
the matching is complete, paired with that closing delimiter's index; the
scan fails (returns `none`) exactly when `specClose` finds no such
delimiter, i.e. when the input is exhausted while the depth is still
positive.  The matched index always carries a `'}'`. -/
theorem c2_extract_correct (source : List Char) (startIndex : Nat) :
    (extractBody source startIndex =
      (specClose source startIndex).map
        (fun e => (jsTrim (slice source startIndex e), e))) ∧
    (∀ e, specClose source startIndex = some e →
      startIndex ≤ e ∧ e < source.length ∧ source[e]? = some '}') :=
  ⟨extractBody_eq_spec source startIndex, fun _ h =>
    ⟨(specClose_le_lt h).1, (specClose_le_lt h).2, specClose_brace h⟩⟩

/-- C2, witness at a concrete input. -/
theorem c2_extract_correct_witness :
    (0 : Nat) ≤ 2 ∧ 2 < (strL "ab\x7d").length ∧ (strL "ab\x7d")[2]? = some '}' :=
  (c2_extract_correct (strL "ab\x7d") 0).2 2 (by decide)

/-! ## Claim C5: a failed extraction skips the head silently -/

theorem headAt_false_of_ge {s : List Char} {m : Nat} (h : s.length ≤ m) :
    headAt s m = false := by
  have : s[m]? = none := by simp [List.getElem?_eq_none_iff]; omega
  simp [headAt, this]

theorem findHeadF_none_sound {s : List Char} :
    ∀ {fuel i : Nat}, s.length ≤ i + fuel → findHeadF s fuel i = none →
      ∀ m, i ≤ m → headAt s m = false := by
  intro fuel
  induction fuel with
  | zero =>
    intro i hfuel _ m him
    exact headAt_false_of_ge (by omega)
  | succ fuel ih =>
    intro i hfuel h m him
    simp only [findHeadF] at h
    split at h
    · split at h
      · cases h
      · rename_i hno
        rcases Nat.eq_or_lt_of_le him with rfl | hlt
        · simpa using hno
        · exact ih (by omega) h m hlt
    · exact headAt_false_of_ge (by omega)

theorem findHead_none_sound {s : List Char} {i : Nat}
    (h : findHead s i = none) : ∀ m, i ≤ m → headAt s m = false :=
  findHeadF_none_sound (by omega) h

theorem wordRunEnd_ge {s : List Char} {j : Nat} : j ≤ wordRunEnd s j :=
  wordRunEndF_ge

theorem wordRunEnd_le_of_not_word {s : List Char} {j m : Nat} {c : Char}
    (hm : s[m]? = some c) (hc : isWordChar c = false) (hjm : j ≤ m) :
    wordRunEnd s j ≤ m :=
  wordRunEndF_le_of_not_word hm hc hjm

theorem wordRunEnd_word {s : List Char} {j : Nat} :
    ∀ m, j ≤ m → m < wordRunEnd s j →
      ∃ c, s[m]? = some c ∧ isWordChar c = true :=
  wordRunEndF_word

theorem headData_elim {s : List Char} {i p ne q : Nat}
    (h : headData s i = some (p, ne, q)) :
    findHead s i = some p ∧ ne = wordRunEnd s (p+1) ∧
      firstBrace s ne = some q := by
  unfold headData at h
  cases hf : findHead s i with
  | none => rw [hf] at h; cases h
  | some p' =>
    rw [hf] at h
    cases hb : firstBrace s (wordRunEnd s (p'+1)) with
    | none => simp only [hb] at h; cases h
    | some q' =>
      simp only [hb] at h
      cases h
      exact ⟨rfl, rfl, hb⟩

/-- After a failed extraction, rescanning from the head's successor gives
the same records as rescanning from just past the opening brace: every
candidate head strictly between uses the same first opening brace and so
fails the same extraction. -/
theorem parseFrom_skip_failed {s : List Char} {i p ne q : Nat}
    (hd : headData s i = some (p, ne, q))
    (hext : extractBody s (q+1) = none) :
    parseFrom s i = parseFrom s (p+1) := by
  obtain ⟨hf, hne, hfb⟩ := headData_elim hd
  obtain ⟨hip, hpne, hneq, hql, hqc, hpc, hhead⟩ := headData_bounds hd
  have hA : parseFrom s i = parseFrom s (q+1) := by
    rw [parseFrom_unfold_some hd, hext]
  rw [hA]
  cases hf2 : findHead s (p+1) with
  | none =>
    have hnone : ∀ m, p+1 ≤ m → headAt s m = false := findHead_none_sound hf2
    have h1 : headData s (p+1) = none := by
      unfold headData; rw [hf2]
    have h2 : headData s (q+1) = none := by
      unfold headData
      rw [findHead_intro_none (fun m hm => hnone m (by omega))]
    rw [parseFrom_unfold_none h1, parseFrom_unfold_none h2]
  | some p' =>
    have hA' := findHead_headAt hf2
    have hp'lb := findHead_le hf2
    obtain ⟨hp'at, ⟨c1, hc1, hw1⟩, _⟩ := headAt_at hA'
    by_cases hpq : p' ≤ q
    · -- the next head lies inside the discarded head match; it reuses the
      -- same opening brace and fails the same extraction
      have hnep' : ne ≤ p' := by
        by_contra hlt
        push_neg at hlt
        obtain ⟨c, hc, hw⟩ := wordRunEnd_word (j := p+1) p' (by omega) (hne ▸ hlt)
        rw [hp'at] at hc
        cases hc
        simp [isWordChar] at hw
      have hp'q : p' < q := by
        rcases Nat.eq_or_lt_of_le hpq with rfl | h
        · rw [hqc] at hp'at; cases hp'at
        · exact h
      have hne' : wordRunEnd s (p'+1) ≤ q :=
        wordRunEnd_le_of_not_word hqc (by simp [isWordChar]) (by omega)
      have hfb' : firstBrace s (wordRunEnd s (p'+1)) = some q := by
        apply firstBrace_intro_some hne' hqc
        intro m h1 h2
        have hge : ne ≤ m := by
          have := wordRunEnd_ge (s := s) (j := p'+1)
          omega
        exact firstBrace_min hfb m hge h2
      have hd' : headData s (p+1) = some (p', wordRunEnd s (p'+1), q) := by
        unfold headData
        simp only [hf2, hfb']
      rw [parseFrom_unfold_some hd', hext]
    · -- the next head lies past the opening brace; rescans from `p+1` and
      -- from `q+1` find the same head
      push_neg at hpq
      have hfq : findHead s (q+1) = some p' := by
        apply findHead_intro_some (by omega) hA'
        intro m h1 h2
        exact findHead_min hf2 m (by omega) h2
      have hdeq : headData s (q+1) = headData s (p+1) := by
        unfold headData
        rw [hf2, hfq]
      cases hx : headData s (p+1) with
      | none =>
        rw [parseFrom_unfold_none (hdeq.trans hx), parseFrom_unfold_none hx]
      | some t =>
        obtain ⟨p'', ne'', q''⟩ := t
        rw [parseFrom_unfold_some (hdeq.trans hx), parseFrom_unfold_some hx]

/-- C5: when body extraction reports unbalanced delimiters the candidate
head is silently discarded — no record is emitted, parsing continues as if
the search had resumed from the head position's successor — and in
particular `parse('@foo { bar')` returns zero records (the embedding is a
total function, so no exception is possible). -/
theorem c5_unbalanced_discard :
    (∀ (s : List Char) (i p ne q : Nat), headData s i = some (p, ne, q) →
      extractBody s (q+1) = none → parseFrom s i = parseFrom s (p+1)) ∧
    parseAnns (strL "@foo \x7b bar") = [] :=
  ⟨fun _ _ _ _ _ hd hext => parseFrom_skip_failed hd hext, by decide⟩

/-- C5, witness at a concrete input: the malformed `@a { x` head is
dropped but the later well-formed `@b {y}` is still parsed. -/
theorem c5_unbalanced_discard_witness :
    parseFrom (strL "@a \x7b x @b \x7by\x7d") 0 = parseFrom (strL "@a \x7b x @b \x7by\x7d") 1 ∧
    parseAnns (strL "@foo \x7b bar") = [] :=
  ⟨c5_unbalanced_discard.1 (strL "@a \x7b x @b \x7by\x7d") 0 0 2 3 (by decide) (by decide),
   c5_unbalanced_discard.2⟩

/-! ## Claim C3: the transform splice -/

theorem slice_length {s : List Char} {a b : Nat} (hab : a ≤ b)
    (hb : b ≤ s.length) : (slice s a b).length = b - a := by
  simp [slice]
  omega

theorem slice_eq_take_drop {s : List Char} (a b : Nat) :
    slice s a b = (s.drop a).take (b - a) := by
  simp [slice, List.drop_take]

theorem jsSubstring_zero_take {R : List Char} {b : Int} (h0 : 0 ≤ b)
    (hb : b ≤ (R.length : Int)) : jsSubstring R 0 b = R.take b.toNat := by
  simp only [jsSubstring, clampIdx]
  have h1 : (min (0 : Int) (R.length : Int)).toNat = 0 := by omega
  have h2 : (min b (R.length : Int)).toNat = b.toNat := by omega
  rw [h1, h2, Nat.min_eq_left (Nat.zero_le _), Nat.max_eq_right (Nat.zero_le _),
    List.drop_zero]

theorem jsSubstring_drop {R : List Char} {a : Int} (h0 : 0 ≤ a)
    (ha : a ≤ (R.length : Int)) :
    jsSubstring R a (R.length : Int) = R.drop a.toNat := by
  simp only [jsSubstring, clampIdx]
  have h1 : (min a (R.length : Int)).toNat = a.toNat := by omega
  have h2 : (min (R.length : Int) (R.length : Int)).toNat = R.length := by omega
  have h3 : a.toNat ≤ R.length := by omega
  rw [h1, h2, Nat.min_eq_left h3, Nat.max_eq_right h3, List.take_length]

/-- Well-formedness bookkeeping for a record list about to be spliced:
from output position `pos`, each record starts no earlier than `pos`, has a
non-empty in-bounds span, and the records that follow start no earlier than
its end. -/
def SpansOk (src : List Char) : Nat → List Record → Prop
  | _, [] => True
  | pos, r :: rest =>
    pos ≤ r.start ∧ r.start < r.endPos ∧ r.endPos ≤ src.length ∧
      SpansOk src r.endPos rest

theorem SpansOk.mono {src : List Char} {p p' : Nat} {rs : List Record}
    (h : p ≤ p') (hok : SpansOk src p' rs) : SpansOk src p rs := by
  cases rs with
  | nil => trivial
  | cons a rest =>
    obtain ⟨h1, h2⟩ := hok
    exact ⟨by omega, h2⟩

theorem spansOk_of_chain {src : List Char} :
    ∀ (rs : List Record), chainDisjoint rs = true →
      (∀ r ∈ rs, r.start < r.endPos ∧ r.endPos ≤ src.length) →
      ∀ pos, (∀ r, rs.head? = some r → pos ≤ r.start) → SpansOk src pos rs := by
  intro rs
  induction rs with
  | nil => intro _ _ pos _; trivial
  | cons a rest ih =>
    intro hchain hb pos hpos
    have hba := hb a (by simp)
    cases rest with
    | nil =>
      exact ⟨hpos a rfl, hba.1, hba.2, trivial⟩
    | cons b t =>
      simp only [chainDisjoint, Bool.and_eq_true, decide_eq_true_eq] at hchain
      refine ⟨hpos a rfl, hba.1, hba.2, ?_⟩
      exact ih hchain.2 (fun r hr => hb r (by simp [hr])) a.endPos
        (fun r hr => by cases hr; exact hchain.1)

theorem transformGo_splice {κ : Type} (g : Glossify κ) (ctx : κ)
    (src : List Char) :
    ∀ (rs : List Record) (T : List Char) (p : Nat), p ≤ src.length →
      SpansOk src p rs →
      transformGo g ctx rs (T ++ src.drop p) ((T.length : Int) - (p : Int)) =
        T ++ spliceGo src g ctx p rs := by
  intro rs
  induction rs with
  | nil => intro T p _ _; simp [transformGo, spliceGo]
  | cons a rest ih =>
    intro T p hp hok
    obtain ⟨hpa, has, hae, hrest⟩ := hok
    cases hh : g.handlers a.name with
    | none =>
      simp only [transformGo, spliceGo, hh]
      exact ih T p hp (hrest.mono (by omega))
    | some handler =>
      cases hres : handler a.value a.body ctx with
      | other t =>
        simp only [transformGo, spliceGo, hh, hres]
        exact ih T p hp (hrest.mono (by omega))
      | str repl =>
        simp only [transformGo, spliceGo, hh, hres]
        have hlenR : ((T ++ src.drop p).length : Int) =
            (T.length : Int) + (src.length : Int) - (p : Int) := by
          simp [List.length_append, List.length_drop]
          omega
        have hstart0 : (0 : Int) ≤ (a.start : Int) + ((T.length : Int) - (p : Int)) := by
          omega
        have hstartle : (a.start : Int) + ((T.length : Int) - (p : Int)) ≤
            ((T ++ src.drop p).length : Int) := by
          rw [hlenR]; omega
        have hend0 : (0 : Int) ≤ (a.endPos : Int) + ((T.length : Int) - (p : Int)) := by
          omega
        have hendle : (a.endPos : Int) + ((T.length : Int) - (p : Int)) ≤
            ((T ++ src.drop p).length : Int) := by
          rw [hlenR]; omega
        rw [jsSubstring_zero_take hstart0 hstartle, jsSubstring_drop hend0 hendle]
        have htoN1 : ((a.start : Int) + ((T.length : Int) - (p : Int))).toNat =
            T.length + (a.start - p) := by omega
        have htoN2 : ((a.endPos : Int) + ((T.length : Int) - (p : Int))).toNat =
            T.length + (a.endPos - p) := by omega
        rw [htoN1, htoN2, List.take_append, List.drop_append]
        have htk : (src.drop p).take (a.start - p) = slice src p a.start :=
          (slice_eq_take_drop _ _).symm
        have hdr : (src.drop p).drop (a.endPos - p) = src.drop a.endPos := by
          rw [List.drop_drop]
          congr 1
          omega
        rw [htk, hdr]
        have hlen' : ((T ++ slice src p a.start ++ repl).length : Int) =
            (T.length : Int) + ((a.start : Int) - (p : Int)) + (repl.length : Int) := by
          have := slice_length (s := src) (le_of_lt (by omega : p < a.endPos) |>.trans
            (by omega : a.endPos ≤ a.endPos)) hae
          simp [List.length_append, slice_length (by omega : p ≤ a.start)
            (by omega : a.start ≤ src.length)]
          omega
        have harr : T ++ slice src p a.start ++ repl ++ src.drop a.endPos =
            (T ++ slice src p a.start ++ repl) ++ src.drop a.endPos := by
          simp [List.append_assoc]
        rw [harr]
        have hoff : (T.length : Int) - (p : Int) + (repl.length : Int) -
            ((a.endPos : Int) - (a.start : Int)) =
            (((T ++ slice src p a.start ++ repl).length : Int)) - (a.endPos : Int) := by
          rw [hlen']; omega
        rw [hoff, ih (T ++ slice src p a.start ++ repl) a.endPos hae hrest]
        simp [List.append_assoc]

/-- C3, counterexample: with the nested source `"@a\x7b@a\x7b\x7d\x7d XYZ"` and a
handler for `a` that always returns `"RRRR"`, both parsed records overlap
(the inner one lies inside the outer span), and the spliced output is
`"RRRRR XYZ"` of length 9 — but a well-formed splice (no duplicated or
dropped characters) would have length
`12 + (4 - 8) + (4 - 4) = 8`: characters of the first replacement are
duplicated by the second, clamped, splice. -/
theorem c3_counterexample :
    Glossify.transform
      (⟨fun n => if n = strL "a"
        then some (fun _ _ _ => JsVal.str (strL "RRRR")) else none⟩ : Glossify Unit)
      (strL "@a\x7b@a\x7b\x7d\x7d XYZ") () = strL "RRRRR XYZ" ∧
    ((strL "@a\x7b@a\x7b\x7d\x7d XYZ").length : Int) + ((4 : Int) - 8) + ((4 : Int) - 4) = 8 ∧
    (strL "RRRRR XYZ").length = 9 ∧
    ¬ chainDisjoint (parseAnns (strL "@a\x7b@a\x7b\x7d\x7d XYZ")) = true := by
  refine ⟨by decide, by decide, by decide, by decide⟩

/-- C3, amended: `transform` applies splices in left-to-right order of the
records' original positions, maintaining the running offset
`offset += len(replacement) - (end - start)`; *provided the records
returned by `parse` are pairwise non-overlapping in `[start, end)`* the
final string is well-formed — every splice replaces exactly its record's
original span and all text outside the matched spans is preserved at the
correctly shifted positions (`spliceGo`), regardless of how replacement
lengths differ from matched lengths.  (With overlapping — i.e. nested —
records this fails, see the counterexample.) -/
theorem c3_transform_wellformed {κ : Type} (g : Glossify κ)
    (source : List Char) (ctx : κ)
    (hdisj : chainDisjoint (Glossify.parse g source) = true) :
    Glossify.transform g source ctx =
      spliceGo source g ctx 0 (Glossify.parse g source) := by
  have hok : SpansOk source 0 (Glossify.parse g source) := by
    apply spansOk_of_chain _ hdisj
    · intro r hr
      exact ⟨(parseAnns_mem hr).1, (parseAnns_mem hr).2.1⟩
    · intro r _
      omega
  have := transformGo_splice g ctx source (Glossify.parse g source) [] 0
    (by omega) hok
  simpa [Glossify.transform, Glossify.parse] using this

/-- C3, witness: transforming `'@uppercase hello { world }'` with a handler
returning `"HELLO: WORLD"` yields exactly `"HELLO: WORLD"`. -/
theorem c3_transform_wellformed_witness :
    chainDisjoint (Glossify.parse
      (⟨fun n => if n = strL "uppercase"
        then some (fun _ _ _ => JsVal.str (strL "HELLO: WORLD")) else none⟩ : Glossify Unit)
      (strL "@uppercase hello \x7b world \x7d")) = true ∧
    Glossify.transform
      (⟨fun n => if n = strL "uppercase"
        then some (fun _ _ _ => JsVal.str (strL "HELLO: WORLD")) else none⟩ : Glossify Unit)
      (strL "@uppercase hello \x7b world \x7d") () = strL "HELLO: WORLD" := by
  refine ⟨by decide, ?_⟩
  rw [c3_transform_wellformed _ _ _ (by decide)]
  decide

/-! ## Claim C6: execute dispatch -/

theorem executeGo_eq_filterMap {κ : Type} (g : Glossify κ) (ctx : κ) :
    ∀ (rs : List Record) (acc : List ExecEntry),
      executeGo g ctx rs acc = acc ++ rs.filterMap
        (fun r => (g.handlers r.name).map
          (fun handler => { annotation := r.name, value := r.value,
                            result := handler r.value r.body ctx })) := by
  intro rs
  induction rs with
  | nil => intro acc; simp [executeGo]
  | cons a rest ih =>
    intro acc
    cases hh : g.handlers a.name with
    | none =>
      simp only [executeGo, hh]
      rw [ih]
      simp [List.filterMap_cons, hh]
    | some handler =>
      simp only [executeGo, hh]
      have hstep := ih (acc ++
        [({ annotation := a.name, value := a.value, result := handler a.value a.body ctx } : ExecEntry)])
      rw [hstep]
      simp [List.filterMap_cons, hh]

/-- C6: `execute(source, context)` traverses the parsed records in source
order; exactly the records whose name has a registered callback produce an
entry `{ annotation, value, result }` from invoking the callback with
`(value, body, context)`, and records without a callback are skipped
silently, contributing nothing. -/
theorem c6_execute_dispatch {κ : Type} (g : Glossify κ) (source : List Char)
    (ctx : κ) :
    Glossify.execute g source ctx = (Glossify.parse g source).filterMap
      (fun r => (g.handlers r.name).map
        (fun handler => { annotation := r.name, value := r.value,
                          result := handler r.value r.body ctx })) := by
  unfold Glossify.execute
  rw [executeGo_eq_filterMap]
  simp

/-! ## Claim C9: transform with only non-string results is the identity -/

theorem transformGo_noop {κ : Type} (g : Glossify κ) (ctx : κ)
    (h : ∀ nm handler v b, g.handlers nm = some handler →
      (handler v b ctx).isStr = false) :
    ∀ (rs : List Record) (result : List Char) (offset : Int),
      transformGo g ctx rs result offset = result := by
  intro rs
  induction rs with
  | nil => intro result offset; simp [transformGo]
  | cons a rest ih =>
    intro result offset
    cases hh : g.handlers a.name with
    | none => simp only [transformGo, hh]; exact ih result offset
    | some handler =>
      have hns := h a.name handler a.value a.body hh
      cases hres : handler a.value a.body ctx with
      | str t => rw [hres] at hns; simp [JsVal.isStr] at hns
      | other t =>
        simp only [transformGo, hh, hres]
        exact ih result offset

/-- C9: if every registered handler returns a non-string result (for the
given context), `transform(source, context)` returns the source unchanged:
non-string results leave the original span untouched, so the whole output
is the original string. -/
theorem c9_transform_noop {κ : Type} (g : Glossify κ) (source : List Char)
    (ctx : κ)
    (h : ∀ nm handler v b, g.handlers nm = some handler →
      (handler v b ctx).isStr = false) :
    Glossify.transform g source ctx = source :=
  transformGo_noop g ctx h _ source 0

/-- C9, witness at a concrete instance and source. -/
theorem c9_transform_noop_witness :
    Glossify.transform
      (⟨fun n => if n = strL "a"
        then some (fun _ _ _ => JsVal.other 0) else none⟩ : Glossify Unit)
      (strL "@a\x7bx\x7d") () = strL "@a\x7bx\x7d" :=
  c9_transform_noop _ _ ()
    (fun nm handler v b hh => by
      by_cases hn : nm = strL "a"
      · subst hn
        simp at hh
        subst hh
        rfl
      · simp [hn] at hh)

/-! ## Claim C10: parse is independent of the handler registry -/

/-- C10: `parse` is a pure function of the source string alone.  Two
instances with arbitrarily different handler registries (even over
different context types) return identical record lists for the same
source, and registering a handler never changes what `parse` returns. -/
theorem c10_parse_pure :
    (∀ (κ₁ κ₂ : Type) (g₁ : Glossify κ₁) (g₂ : Glossify κ₂)
      (source : List Char),
      Glossify.parse g₁ source = Glossify.parse g₂ source) ∧
    (∀ (κ : Type) (g : Glossify κ) (nm : List Char)
      (handler : List Char → List Char → κ → JsVal) (source : List Char),
      Glossify.parse (Glossify.register g nm handler) source =
        Glossify.parse g source) :=
  ⟨fun _ _ _ _ _ => rfl, fun _ _ _ _ _ => rfl⟩

/-! ## Claims C7 and C8: route pattern matching -/

theorem matchToksF_sound :
    ∀ {fuel : Nat} {ts : List RTok} {xs : List Char} {cs : List (List Char)},
      ts.length < fuel → matchToksF fuel ts xs = some cs → Matches ts xs cs := by
  intro fuel
  induction fuel with
  | zero => intro ts xs cs h _; omega
  | succ fuel ih =>
    intro ts xs cs hlen hm
    match ts with
    | [] =>
      simp only [matchToksF] at hm
      split at hm
      · cases hm
        have hxs : xs = [] := List.isEmpty_iff.mp (by assumption)
        rw [hxs]
        exact Matches.nil
      · cases hm
    | RTok.lit c :: ts =>
      match xs with
      | [] => simp [matchToksF] at hm
      | x :: rest =>
        simp only [matchToksF] at hm
        split at hm
        · rename_i hxc
          subst hxc
          exact Matches.lit (ih (by simpa using Nat.lt_of_succ_lt_succ hlen) hm)
        · cases hm
    | RTok.any :: ts =>
      match xs with
      | [] => simp [matchToksF] at hm
      | x :: rest =>
        simp only [matchToksF] at hm
        split at hm
        · cases hm
        · rename_i hterm
          refine Matches.any ?_ (ih (by simpa using Nat.lt_of_succ_lt_succ hlen) hm)
          intro hx
          apply hterm
          rcases hx with h | h | h | h <;> simp [h]
    | RTok.cap :: ts =>
      simp only [matchToksF] at hm
      obtain ⟨k, hkmem, hfk⟩ := List.exists_of_findSome?_eq_some hm
      obtain ⟨cs', hcs', rfl⟩ := Option.map_eq_some'.mp hfk
      obtain ⟨j, hj, rfl⟩ := List.mem_map.mp hkmem
      have hjm : j < (xs.takeWhile (fun d => !(d = '/'))).length :=
        List.mem_range.mp hj
      set m := (xs.takeWhile (fun d => !(d = '/'))).length with hmdef
      have hk1 : 1 ≤ m - j := by omega
      have hkm : m - j ≤ m := by omega
      have hmlen : m ≤ xs.length :=
        (List.takeWhile_sublist _).length_le
      have htake : xs.take (m - j) = (xs.takeWhile (fun d => !(d = '/'))).take (m - j) := by
        conv =>
          lhs
          rw [← List.takeWhile_append_dropWhile (fun d => !(d = '/')) xs]
        exact List.take_append_of_le_length (by omega)
      have hne : xs.take (m - j) ≠ [] := by
        have : (xs.take (m - j)).length = m - j := by
          simp
          omega
        intro hnil
        rw [hnil] at this
        simp at this
        omega
      have hall : ∀ c ∈ xs.take (m - j), ¬(c = '/') := by
        intro c hc
        rw [htake] at hc
        have := List.mem_takeWhile_imp (List.take_subset _ _ hc)
        simpa using this
      have hmatch : Matches (RTok.cap :: ts)
          (xs.take (m - j) ++ xs.drop (m - j)) (xs.take (m - j) :: cs') :=
        Matches.cap hne hall (ih (by simpa using Nat.lt_of_succ_lt_succ hlen) hcs')
      rw [List.take_append_drop] at hmatch
      exact hmatch

theorem matchToks_sound {ts : List RTok} {xs : List Char}
    {cs : List (List Char)} (h : matchToks ts xs = some cs) :
    Matches ts xs cs :=
  matchToksF_sound (by omega) h

/-- C7: route matching is exact — a successful match decomposes the whole
concrete path against the pattern start-to-end (`Matches`), with each
capture bound to a non-empty run of non-separator characters, collected
positionally in pattern order; concretely, `/users/:id` matches
`/users/42` yielding `id ↦ "42"` and matches neither `/users/42/extra`
nor `/users`. -/
theorem c7_route_matching :
    (∀ (ts : List RTok) (xs : List Char) (cs : List (List Char)),
      matchToks ts xs = some cs → Matches ts xs cs) ∧
    matchRoutePattern (strL "/users/:id") (strL "/users/42") =
      some [(strL "id", strL "42")] ∧
    matchRoutePattern (strL "/users/:id") (strL "/users/42/extra") = none ∧
    matchRoutePattern (strL "/users/:id") (strL "/users") = none :=
  ⟨fun _ _ _ h => matchToks_sound h, by decide, by decide, by decide⟩

/-- C7, witness: the soundness half applied at `/users/:id` vs
`/users/42`. -/
theorem c7_route_matching_witness :
    Matches (compilePath (strL "/users/:id")) (strL "/users/42") [strL "42"] :=
  c7_route_matching.1 (compilePath (strL "/users/:id")) (strL "/users/42")
    [strL "42"] (by decide)

/-- C8, counterexample: the route compiler escapes only `/`, so `.` in a
pattern is an unescaped regex wildcard — `/a.c` matches `/abc` although
`/abc` differs from `/a.c` in a non-capture character — and a `:`-token
captures even mid-segment: `/a:b` (whose segment `a:b` is not exactly
`:name`) matches `/ac`, binding `b ↦ "c"`. -/
theorem c8_counterexample :
    matchRoutePattern (strL "/a.c") (strL "/abc") = some [] ∧
    matchRoutePattern (strL "/a:b") (strL "/ac") =
      some [(strL "b", strL "c")] ∧
    strL "/abc" ≠ strL "/a.c" :=
  ⟨by decide, by decide, by decide⟩

/-- C8, amended: in a route pattern a `':'` followed by one or more
non-separator characters — wherever it occurs inside a segment, not only
as a whole segment — compiles to a capture of one or more non-separator
characters; a literal pattern character matches only the identical path
character, but characters are literal only insofar as they have no regex
meaning: `'.'` is left unescaped and matches any single non-line-terminator
character. -/
theorem c8_amended_tokens :
    (∀ (c : Char) (ts : List RTok) (x : Char) (xs : List Char)
      (cs : List (List Char)),
      matchToks (RTok.lit c :: ts) (x :: xs) = some cs →
        x = c ∧ matchToks ts xs = some cs) ∧
    (∀ (ts : List RTok) (x : Char) (xs : List Char),
      ¬(x = '\n' ∨ x = '\r' ∨ x = '\u2028' ∨ x = '\u2029') →
      matchToks (RTok.any :: ts) (x :: xs) = matchToks ts xs) ∧
    compilePath (strL "/a.c") =
      [RTok.lit '/', RTok.lit 'a', RTok.any, RTok.lit 'c'] ∧
    compilePath (strL "/a:b") = [RTok.lit '/', RTok.lit 'a', RTok.cap] := by
  refine ⟨?_, ?_, by decide, by decide⟩
  · intro c ts x xs cs hm
    simp only [matchToks, matchToksF, List.length_cons] at hm
    split at hm
    · exact ⟨by assumption, hm⟩
    · cases hm
  · intro ts x xs hx
    simp only [matchToks, matchToksF, List.length_cons]
    rw [if_neg]
    simp only [Bool.or_eq_true, decide_eq_true_eq]
    push_neg at hx
    simp [hx.1, hx.2.1, hx.2.2.1, hx.2.2.2]

/-- C8, witness for the amended literal-exactness part. -/
theorem c8_amended_tokens_witness :
    ('a' : Char) = 'a' ∧ matchToks [] ([] : List Char) = some [] :=
  c8_amended_tokens.1 'a' [] 'a' [] [] (by decide)

end Gloss
